import Mathlib

/-!
Verification of the Devtrad analytics core: indicator computation
(EMA, RSI), the two trade-simulation state machines (EMA crossover,
RSI mean reversion), the performance-metrics calculator, the risk
analyzer and the market-regime classifier.

Numbers are modelled as exact rationals (`ℚ`).  Python's `round(x, 4)`
is modelled as decimal rounding half-to-even (`roundQ4`); every
concrete value appearing in a claim is an exact 4-decimal value, so no
tie or binary-float artefact is involved.  The single genuinely
irrational operation of the source, `np.std` (a square root), is
modelled by `ratSqrt`, which is exact whenever the root is rational;
no claim depends on a non-trivial standard-deviation value.
-/

/-- Rounding to the nearest integer, ties to even (the rounding used by
Python's builtin `round`). -/
def roundHalfEven (q : ℚ) : ℤ :=
  if q - ⌊q⌋ < 1/2 then ⌊q⌋
  else if 1/2 < q - ⌊q⌋ then ⌊q⌋ + 1
  else if ⌊q⌋ % 2 = 0 then ⌊q⌋ else ⌊q⌋ + 1

/-- `round(x, 4)` from the source: round to four decimal places. -/
def roundQ4 (q : ℚ) : ℚ := (roundHalfEven (q * 10000) : ℚ) / 10000

/-- Exact square root of a rational, `0` when the root is irrational.
Models `np.std`'s square root; the source's guards only ever test
`std > 0`, which coincides with `variance > 0`, and no claim depends on
the numeric value of a (generally irrational) standard deviation. -/
def ratSqrt (q : ℚ) : ℚ :=
  if 0 ≤ q ∧ Nat.sqrt q.num.natAbs ^ 2 = q.num.natAbs ∧ Nat.sqrt q.den ^ 2 = q.den
  then (Nat.sqrt q.num.natAbs : ℚ) / (Nat.sqrt q.den : ℚ)
  else 0

/-- Population variance (mean of squared deviations), the square of
`np.std`. -/
def popVariance (rs : List ℚ) : ℚ :=
  if rs = [] then 0
  else
    let mean := rs.sum / rs.length
    (rs.map fun r => (r - mean) ^ 2).sum / rs.length

/-- Result record of `MetricsCalculator.calculate` (`app/core/metrics.py`). -/
structure MetricsResult where
  win_rate : ℚ
  total_return : ℚ
  max_drawdown : ℚ
  sharpe_ratio : ℚ
  total_trades : ℕ
  deriving DecidableEq

/-- The equity curve of `MetricsCalculator.calculate`: starts at
`capital` and appends `capital *= (1 + r)` after each trade. -/
def equityCurve (capital : ℚ) : List ℚ → List ℚ
  | [] => [capital]
  | r :: rs => capital :: equityCurve (capital * (1 + r)) rs

/-- One iteration of the max-drawdown loop of
`MetricsCalculator.calculate`: state is `(peak, max_drawdown)`. -/
def drawdownStep : ℚ × ℚ → ℚ → ℚ × ℚ
  | (peak, mdd), value =>
    let peak' := if value > peak then value else peak
    let dd := if peak' > 0 then (peak' - value) / peak' else 0
    (peak', if dd > mdd then dd else mdd)

/-- Max drawdown over an equity curve, as in
`MetricsCalculator.calculate`: `peak` starts at the first equity value,
the loop runs over every value (the first included). -/
def maxDrawdown : List ℚ → ℚ
  | [] => 0
  | e :: es => ((e :: es).foldl drawdownStep (e, 0)).2

/-- `MetricsCalculator.calculate`.  A trade is represented by its
`'return'` value, the only field the function reads (it subscripts
`trade['return']` directly). -/
def computeMetrics (returns : List ℚ) (initial_capital : ℚ) : MetricsResult :=
  match returns with
  | [] => ⟨0, 0, 0, 0, 0⟩
  | r :: rs =>
    let n := (r :: rs).length
    let winning := ((r :: rs).filter fun x => 0 < x).length
    let win_rate : ℚ := if 0 < n then (winning : ℚ) / n else 0
    let capital := (r :: rs).foldl (fun cap x => cap * (1 + x)) initial_capital
    let total_return := (capital - initial_capital) / initial_capital
    let mdd := maxDrawdown (equityCurve initial_capital (r :: rs))
    let variance := popVariance (r :: rs)
    let sharpe := if 1 < n ∧ 0 < variance
                  then ((r :: rs).sum / n) / ratSqrt variance else 0
    ⟨roundQ4 win_rate, roundQ4 total_return, roundQ4 mdd, roundQ4 sharpe, n⟩

/-- A loosely-typed trade consumed by `RiskAnalyzer`: a dict that may
or may not carry a `'return'` or `'return_pct'` key (an attribute-based
trade object lacking both attributes is extracted identically). -/
structure TradeDict where
  ret : Option ℚ
  ret_pct : Option ℚ
  deriving DecidableEq

/-- `trade.get('return', trade.get('return_pct', 0))` from
`RiskAnalyzer.analyze`: `dict.get` never raises, it falls back to the
given default. -/
def extractReturn (t : TradeDict) : ℚ := t.ret.getD (t.ret_pct.getD 0)

/-- Result record of `RiskAnalyzer.analyze`. -/
structure RiskResult where
  return_volatility : ℚ
  max_consecutive_losses : ℕ
  largest_loss : ℚ
  avg_loss : ℚ
  risk_level : String
  value_at_risk_95 : ℚ
  deriving DecidableEq

/-- One iteration of `RiskAnalyzer._calculate_max_consecutive_losses`:
state is `(max_consecutive, current_consecutive)`; a return `< 0`
extends the current run, any other return resets it to `0`. -/
def mclStep : ℕ × ℕ → ℚ → ℕ × ℕ
  | (mx, cur), r => if r < 0 then (max mx (cur + 1), cur + 1) else (mx, 0)

/-- `RiskAnalyzer._calculate_max_consecutive_losses`. -/
def maxConsecutiveLosses (rs : List ℚ) : ℕ := (rs.foldl mclStep (0, 0)).1

/-- `RiskAnalyzer._calculate_largest_loss`: `min` of the negative
returns, `0` if there are none. -/
def largestLoss (rs : List ℚ) : ℚ :=
  match rs.filter fun r => r < 0 with
  | [] => 0
  | l :: ls => ls.foldl min l

/-- `RiskAnalyzer._calculate_avg_loss`: mean of the negative returns,
`0` if there are none. -/
def avgLoss (rs : List ℚ) : ℚ :=
  match rs.filter fun r => r < 0 with
  | [] => 0
  | l :: ls => ((l :: ls).sum) / ((l :: ls).length : ℚ)

/-- `RiskAnalyzer._calculate_return_volatility`: population standard
deviation of the returns, `0` with fewer than two trades. -/
def returnVolatility (rs : List ℚ) : ℚ :=
  if rs.length < 2 then 0 else ratSqrt (popVariance rs)

/-- Insertion into a sorted list, for modelling `np.percentile`'s sort. -/
def insertSorted (x : ℚ) : List ℚ → List ℚ
  | [] => [x]
  | y :: ys => if x ≤ y then x :: y :: ys else y :: insertSorted x ys

/-- Ascending sort of the returns (values only matter, not stability). -/
def sortQ (rs : List ℚ) : List ℚ := rs.foldr insertSorted []

/-- `RiskAnalyzer._calculate_value_at_risk` at confidence 0.95:
`np.percentile(returns, 5)` with linear interpolation, `0` with fewer
than two trades. -/
def valueAtRisk95 (rs : List ℚ) : ℚ :=
  if rs.length < 2 then 0
  else
    let sorted := sortQ rs
    let h : ℚ := ((rs.length : ℚ) - 1) * 5 / 100
    let lo := (⌊h⌋).toNat
    let a := sorted.getD lo 0
    let b := sorted.getD (lo + 1) a
    a + (h - (lo : ℚ)) * (b - a)

/-- `RiskAnalyzer._classify_risk`: a score accumulated from three
independent bands, then bucketed. -/
def classifyRisk (volatility : ℚ) (max_consecutive_losses : ℕ) (largest_loss : ℚ) : String :=
  let s1 : ℕ := if volatility > 0.15 then 2 else if volatility > 0.08 then 1 else 0
  let s2 : ℕ := if max_consecutive_losses > 5 then 2
                else if max_consecutive_losses > 3 then 1 else 0
  let s3 : ℕ := if largest_loss < -0.15 then 2 else if largest_loss < -0.08 then 1 else 0
  let risk_score := s1 + s2 + s3
  if risk_score ≤ 2 then "Low" else if risk_score ≤ 4 then "Medium" else "High"

/-- `RiskAnalyzer.analyze`.  The Python body contains no `raise`: it is
a total function of its inputs (the claim-relevant field accesses all
go through `dict.get` with a default).  `initial_capital` is stored by
the constructor but never used in the computation. -/
def computeRisk (trades : List TradeDict) (initial_capital : ℚ) : RiskResult :=
  match trades with
  | [] => ⟨0, 0, 0, 0, "Low", 0⟩
  | t :: ts =>
    let returns := (t :: ts).map extractReturn
    let vol := returnVolatility returns
    let mcl := maxConsecutiveLosses returns
    let ll := largestLoss returns
    ⟨roundQ4 vol, mcl, roundQ4 ll, roundQ4 (avgLoss returns),
     classifyRisk vol mcl ll, roundQ4 (valueAtRisk95 returns)⟩

/-- `MarketRegimeAnalyzer._classify_regime`: high volatility dominates,
then trend strength, else ranging. -/
def classifyRegime (trend_strength volatility : ℚ) : String :=
  if volatility > 1.5 then "Volatile"
  else if trend_strength > 0.6 then "Trending"
  else "Ranging"

/-- `MarketRegimeAnalyzer._classify_volatility`. -/
def classifyVolatility (volatility : ℚ) : String :=
  if volatility < 0.5 then "Low"
  else if volatility < 1.5 then "Medium"
  else "High"

/-- Tail of pandas `ewm(span, adjust=False).mean()` after the first
value: `y_t = x_t * α + y_{t-1} * (1 - α)`. -/
def ewmGo (α prev : ℚ) : List ℚ → List ℚ
  | [] => []
  | x :: xs =>
    let y := x * α + prev * (1 - α)
    y :: ewmGo α y xs

/-- pandas `Series.ewm(span, adjust=False).mean()`: with `adjust=False`
pandas computes exactly `y_0 = x_0`, `y_t = x_t*α + y_{t-1}*(1-α)`
(pandas' documented recurrence for `adjust=False`). -/
def ewmAdjustFalse (α : ℚ) : List ℚ → List ℚ
  | [] => []
  | x :: xs => x :: ewmGo α x xs

/-- `EMAStrategy._calculate_ema`'s single EMA:
`df['close'].ewm(span=period, adjust=False).mean()`, `α = 2/(span+1)`. -/
def computeEMA (series : List ℚ) (period : ℤ) : List ℚ :=
  ewmAdjustFalse (2 / ((period : ℚ) + 1)) series

/-- Modelled from the spec (§4.1), for the C5 refinement comparison:
the reference recurrence `ema[0] = series[0]`,
`ema[t] = price[t]*k + ema[t-1]*(1-k)` with `k = 2/(period+1)`. -/
def emaSpecVal (series : List ℚ) (k : ℚ) : ℕ → ℚ
  | 0 => series.getD 0 0
  | t + 1 => series.getD (t + 1) 0 * k + emaSpecVal series k t * (1 - k)

/-- IEEE-754-style value arising in the RSI computation: pandas float
arithmetic produces `+inf` when a positive average gain is divided by a
zero average loss, and `nan` for `0/0` (always the case at index 0). -/
inductive PVal where
  | nan : PVal
  | posInf : PVal
  | negInf : PVal
  | fin : ℚ → PVal
  deriving DecidableEq

/-- Float division of finite values, as numpy/pandas perform it:
`a/0` is `±inf` for `a ≠ 0` and `nan` for `0/0`. -/
def fdiv (a b : ℚ) : PVal :=
  if b = 0 then
    if 0 < a then .posInf else if a < 0 then .negInf else .nan
  else .fin (a / b)

/-- Float `c + v`. -/
def PVal.addConst (c : ℚ) : PVal → PVal
  | .nan => .nan
  | .posInf => .posInf
  | .negInf => .negInf
  | .fin q => .fin (c + q)

/-- Float `c / v` (used with `c = 100`): a finite value divided by
`±inf` is `0`. -/
def PVal.divInto (c : ℚ) : PVal → PVal
  | .nan => .nan
  | .posInf => .fin 0
  | .negInf => .fin 0
  | .fin q => fdiv c q

/-- Float `c - v`. -/
def PVal.subFrom (c : ℚ) : PVal → PVal
  | .nan => .nan
  | .posInf => .negInf
  | .negInf => .posInf
  | .fin q => .fin (c - q)

/-- `delta = df['close'].diff()` is `NaN` at index 0;
`delta.where(delta > 0, 0)` replaces that `NaN` (the condition is false
on `NaN`) and every non-positive delta by `0`, so the gains series is
`0` followed by `max(close[t] - close[t-1], 0)`. -/
def gainsList (s : List ℚ) : List ℚ :=
  match s with
  | [] => []
  | _ :: tail => 0 :: List.zipWith (fun prev cur => max (cur - prev) 0) s tail

/-- `-delta.where(delta < 0, 0)`: the losses series, `0` followed by
`max(close[t-1] - close[t], 0)`. -/
def lossesList (s : List ℚ) : List ℚ :=
  match s with
  | [] => []
  | _ :: tail => 0 :: List.zipWith (fun prev cur => max (prev - cur) 0) s tail

/-- `gains.ewm(span=period, adjust=False).mean()` of
`RSIStrategy._calculate_rsi`. -/
def avgGainList (s : List ℚ) (period : ℤ) : List ℚ :=
  ewmAdjustFalse (2 / ((period : ℚ) + 1)) (gainsList s)

/-- `losses.ewm(span=period, adjust=False).mean()` of
`RSIStrategy._calculate_rsi`. -/
def avgLossList (s : List ℚ) (period : ℤ) : List ℚ :=
  ewmAdjustFalse (2 / ((period : ℚ) + 1)) (lossesList s)

/-- One RSI entry: `rs = avg_gain / avg_loss`,
`rsi = 100 - (100 / (1 + rs))`, in float semantics. -/
def rsiOfAvgs (g l : ℚ) : PVal :=
  PVal.subFrom 100 (PVal.divInto 100 (PVal.addConst 1 (fdiv g l)))

/-- `RSIStrategy._calculate_rsi`: the RSI series, elementwise over the
smoothed gains and losses. -/
def computeRSI (s : List ℚ) (period : ℤ) : List PVal :=
  List.zipWith rsiOfAvgs (avgGainList s period) (avgLossList s period)

/-- `pd.isna`: only `NaN` is "na" (infinities are not). -/
def PVal.isna : PVal → Bool
  | .nan => true
  | _ => false

/-- Float `v < c` (false on `NaN`, as in IEEE comparisons). -/
def PVal.ltQ : PVal → ℚ → Bool
  | .fin q, c => decide (q < c)
  | .negInf, _ => true
  | _, _ => false

/-- Float `v > c` (false on `NaN`). -/
def PVal.gtQ : PVal → ℚ → Bool
  | .fin q, c => decide (c < q)
  | .posInf, _ => true
  | _, _ => false

/-- Float `v <= c` (false on `NaN`). -/
def PVal.leQ : PVal → ℚ → Bool
  | .fin q, c => decide (q ≤ c)
  | .negInf, _ => true
  | _, _ => false

/-- Float `v >= c` (false on `NaN`). -/
def PVal.geQ : PVal → ℚ → Bool
  | .fin q, c => decide (c ≤ q)
  | .posInf, _ => true
  | _, _ => false

/-- A completed trade record emitted by the strategies (`ret` is the
dict's `'return'` entry). -/
structure Trade where
  entry_price : ℚ
  exit_price : ℚ
  ret : ℚ
  entry_index : ℕ
  exit_index : ℕ
  exit_reason : Option String
  deriving DecidableEq

/-- Loop state of both `_simulate_trades` loops: the trades emitted so
far plus the open position (`entry_price`, `entry_index`), `none` when
flat.  The Python keeps a `position_open` flag beside
`entry_price`/`entry_index` variables that are stale once the position
closes; the `Option` carries exactly the live values. -/
structure SimState where
  trades : List Trade
  pos : Option (ℚ × ℕ)
  deriving DecidableEq

/-- Loop body of `EMAStrategy._simulate_trades` at index `i`: golden
cross (`short` crosses above `long`) opens when flat, death cross
closes when open.  EMAs of plain numbers are never NaN, so the
source's `pd.isna` skip cannot fire. -/
def emaStep (i : ℕ) (prevS prevL curS curL price : ℚ) (st : SimState) : SimState :=
  match st.pos with
  | none =>
    if curS > curL ∧ prevS ≤ prevL then { st with pos := some (price, i) } else st
  | some (ep, ei) =>
    if curS < curL ∧ prevS ≥ prevL then
      { trades := st.trades ++ [⟨ep, price, (price - ep) / ep, ei, i, none⟩], pos := none }
    else st

/-- The `for i in range(1, len(df))` loop of
`EMAStrategy._simulate_trades`; each row is (short EMA, long EMA,
close) at index `i`, the previous row's EMAs are carried along. -/
def emaSimAux : ℕ → ℚ × ℚ → List (ℚ × ℚ × ℚ) → SimState → List Trade
  | _, _, [], st => st.trades
  | i, (ps, pl), (s, l, c) :: rest, st =>
    emaSimAux (i + 1) (s, l) rest (emaStep i ps pl s l c st)

/-- `EMAStrategy._simulate_trades`: iterate from index 1; an open
position left at the end of the loop is dropped (only `trades` is
returned). -/
def emaSimulate (short long close : List ℚ) : List Trade :=
  match short, long, close with
  | s0 :: sRest, l0 :: lRest, _ :: cRest =>
    emaSimAux 1 (s0, l0) (sRest.zip (lRest.zip cRest)) ⟨[], none⟩
  | _, _, _ => []

/-- Loop body of `RSIStrategy._simulate_trades` at index `i`, with the
source's branch order: NaN skip, then entry (RSI crosses below
oversold), then the overbought take-profit, then the mid-level stop
(which also requires `i > entry_index + 5`). -/
def rsiStep (oversold overbought : ℚ) (i : ℕ) (prev cur : PVal) (price : ℚ)
    (st : SimState) : SimState :=
  if cur.isna || prev.isna then st
  else
    match st.pos with
    | none =>
      if cur.ltQ oversold && prev.geQ oversold then { st with pos := some (price, i) }
      else st
    | some (ep, ei) =>
      if cur.gtQ overbought && prev.leQ overbought then
        { trades := st.trades ++ [⟨ep, price, (price - ep) / ep, ei, i, some "overbought"⟩],
          pos := none }
      else if cur.ltQ 50 && prev.geQ 50 && decide (ei + 5 < i) then
        { trades := st.trades ++ [⟨ep, price, (price - ep) / ep, ei, i, some "mid_level_exit"⟩],
          pos := none }
      else st

/-- The `for i in range(1, len(df))` loop of
`RSIStrategy._simulate_trades`; each row is (RSI, close) at index `i`,
the previous RSI is carried along. -/
def rsiSimAux (oversold overbought : ℚ) : ℕ → PVal → List (PVal × ℚ) → SimState → List Trade
  | _, _, [], st => st.trades
  | i, prev, (cur, price) :: rest, st =>
    rsiSimAux oversold overbought (i + 1) cur rest (rsiStep oversold overbought i prev cur price st)

/-- `RSIStrategy._simulate_trades`: iterate from index 1; an open
position left at the end is dropped. -/
def rsiSimulate (rsi : List PVal) (close : List ℚ) (oversold overbought : ℚ) : List Trade :=
  match rsi, close with
  | r0 :: rRest, _ :: cRest => rsiSimAux oversold overbought 1 r0 (rRest.zip cRest) ⟨[], none⟩
  | _, _ => []

/-- Errors of the core, per the spec's taxonomy.  The Python raises
`ValueError` from `validate_parameters`, and `StrategyExecutionError`
with an "Insufficient data" message from `execute`'s length check — the
error the spec calls `InsufficientDataError`. -/
inductive StrategyError where
  | validationError : StrategyError
  | insufficientDataError : StrategyError
  deriving DecidableEq

/-- Parameters of the EMA crossover strategy; Python's
`isinstance(·, int)` check is captured by the `ℤ` field type. -/
structure EMAParams where
  short_period : ℤ
  long_period : ℤ
  deriving DecidableEq

/-- `EMAStrategy.validate_parameters` (the required keys are present by
construction of the record). -/
def validateEMAParams (p : EMAParams) : Except StrategyError Unit :=
  if p.short_period ≤ 0 then .error .validationError
  else if p.long_period ≤ 0 then .error .validationError
  else if p.long_period ≤ p.short_period then .error .validationError
  else .ok ()

/-- `EMAStrategy.execute`: validate the parameters, require at least
`long_period` candles, compute the two EMAs and simulate.  The candle
series is represented by its close column, the only column the
strategy reads. -/
def runEMACrossover (series : List ℚ) (p : EMAParams) : Except StrategyError (List Trade) :=
  match validateEMAParams p with
  | .error e => .error e
  | .ok _ =>
    if (series.length : ℤ) < p.long_period then .error .insufficientDataError
    else .ok (emaSimulate (computeEMA series p.short_period)
                (computeEMA series p.long_period) series)

/-- Parameters of the RSI mean-reversion strategy. -/
structure RSIParams where
  period : ℤ
  oversold : ℚ
  overbought : ℚ
  deriving DecidableEq

/-- `RSIStrategy.validate_parameters`. -/
def validateRSIParams (p : RSIParams) : Except StrategyError Unit :=
  if p.period ≤ 0 then .error .validationError
  else if p.oversold ≤ 0 ∨ 100 ≤ p.oversold then .error .validationError
  else if p.overbought ≤ 0 ∨ 100 ≤ p.overbought then .error .validationError
  else if p.overbought ≤ p.oversold then .error .validationError
  else .ok ()

/-- `RSIStrategy.execute`: validate the parameters, require at least
`period + 1` candles, compute the RSI series and simulate. -/
def runRSIMeanReversion (series : List ℚ) (p : RSIParams) : Except StrategyError (List Trade) :=
  match validateRSIParams p with
  | .error e => .error e
  | .ok _ =>
    if (series.length : ℤ) < p.period + 1 then .error .insufficientDataError
    else .ok (rsiSimulate (computeRSI series p.period) series p.oversold p.overbought)

/-- The C1 trade-list invariant: every trade closes strictly after it
opens, and consecutive trades do not overlap. -/
def TradeListOK (l : List Trade) : Prop :=
  (∀ t ∈ l, t.entry_index < t.exit_index) ∧
  List.Chain' (fun a b => a.exit_index < b.entry_index) l

/-- Loop invariant of both simulators before processing index `i`:
the emitted trades are well-formed and closed before `i`, and an open
position was opened before `i`, after every emitted exit. -/
def StInv (i : ℕ) (st : SimState) : Prop :=
  TradeListOK st.trades ∧
  (∀ t ∈ st.trades, t.exit_index < i) ∧
  ∀ ep ei, st.pos = some (ep, ei) → ei < i ∧ ∀ t ∈ st.trades, t.exit_index < ei

/-- C9: on an empty trade list `computeMetrics` returns all-zero fields
with `total_trades = 0`, and `computeRisk` returns `risk_level = "Low"`
with every numeric field zero; both are total functions, so no error is
raised. -/
theorem metrics_and_risk_empty (c : ℚ) :
    computeMetrics [] c = ⟨0, 0, 0, 0, 0⟩ ∧
    computeRisk [] c = ⟨0, 0, 0, 0, "Low", 0⟩ := by
  constructor <;> rfl

/-- C8: the regime classifier gives volatility priority over trend
(volatility > 1.5 yields "Volatile" for every trend strength, including
trend strengths above 0.6); otherwise trend_strength > 0.6 yields
"Trending", else "Ranging"; and the volatility level is "Low" below
0.5, "Medium" in [0.5, 1.5), "High" at or above 1.5. -/
theorem classifyRegime_spec (ts v : ℚ) :
    (1.5 < v → classifyRegime ts v = "Volatile") ∧
    (v ≤ 1.5 → 0.6 < ts → classifyRegime ts v = "Trending") ∧
    (v ≤ 1.5 → ts ≤ 0.6 → classifyRegime ts v = "Ranging") ∧
    (v < 0.5 → classifyVolatility v = "Low") ∧
    (0.5 ≤ v → v < 1.5 → classifyVolatility v = "Medium") ∧
    (1.5 ≤ v → classifyVolatility v = "High") := by
  refine ⟨fun h => ?_, fun h h2 => ?_, fun h h2 => ?_,
          fun h => ?_, fun h h2 => ?_, fun h => ?_⟩ <;>
    simp only [classifyRegime, classifyVolatility] <;>
    split_ifs <;> first | rfl | linarith

/-- C8 witness: the theorem applied at trend strength 0.7 and
volatility 2 (a volatile market despite a strong trend). -/
theorem classifyRegime_spec_witness :
    classifyRegime (7/10) 2 = "Volatile" ∧ classifyVolatility 2 = "High" :=
  ⟨(classifyRegime_spec (7/10) 2).1 (by norm_num),
   (classifyRegime_spec (7/10) 2).2.2.2.2.2 (by norm_num)⟩

/-- C3: on the concrete four-trade list of the spec with capital 1000,
the metrics calculator reports a win rate of 0.5 and a compounded total
return of exactly 0.1286, and the risk analyzer reports at most two
consecutive losses, a largest loss of −0.1 and an average loss of
−0.075. -/
theorem metrics_risk_concrete_example :
    (computeMetrics [0.1, -0.05, -0.1, 0.2] 1000).win_rate = 0.5 ∧
    (computeMetrics [0.1, -0.05, -0.1, 0.2] 1000).total_return = 0.1286 ∧
    (computeRisk [⟨some 0.1, none⟩, ⟨some (-0.05), none⟩,
                  ⟨some (-0.1), none⟩, ⟨some 0.2, none⟩] 1000).max_consecutive_losses = 2 ∧
    (computeRisk [⟨some 0.1, none⟩, ⟨some (-0.05), none⟩,
                  ⟨some (-0.1), none⟩, ⟨some 0.2, none⟩] 1000).largest_loss = -0.1 ∧
    (computeRisk [⟨some 0.1, none⟩, ⟨some (-0.05), none⟩,
                  ⟨some (-0.1), none⟩, ⟨some 0.2, none⟩] 1000).avg_loss = -0.075 := by
  refine ⟨?_, ?_, ?_, ?_, ?_⟩ <;>
    norm_num [computeMetrics, computeRisk, extractReturn, maxConsecutiveLosses, mclStep,
      largestLoss, avgLoss, roundQ4, roundHalfEven,
      List.foldl, List.filter, List.map, min_def, max_def]

theorem roundHalfEven_mono {x y : ℚ} (h : x ≤ y) : roundHalfEven x ≤ roundHalfEven y := by
  have hf : ⌊x⌋ ≤ ⌊y⌋ := Int.floor_le_floor h
  rcases eq_or_lt_of_le hf with hfe | hfl
  · unfold roundHalfEven
    rw [← hfe]
    have hr : x - ⌊x⌋ ≤ y - ⌊x⌋ := by linarith
    split_ifs <;> first | omega | linarith
  · unfold roundHalfEven
    split_ifs <;> omega

theorem roundHalfEven_zero : roundHalfEven 0 = 0 := by norm_num [roundHalfEven]

theorem roundHalfEven_tenK : roundHalfEven 10000 = 10000 := by norm_num [roundHalfEven]

theorem roundQ4_mono {x y : ℚ} (h : x ≤ y) : roundQ4 x ≤ roundQ4 y := by
  unfold roundQ4
  have : roundHalfEven (x * 10000) ≤ roundHalfEven (y * 10000) :=
    roundHalfEven_mono (by linarith)
  have : ((roundHalfEven (x * 10000) : ℚ)) ≤ ((roundHalfEven (y * 10000) : ℚ)) := by
    exact_mod_cast this
  linarith

theorem roundQ4_nonneg {q : ℚ} (h : 0 ≤ q) : 0 ≤ roundQ4 q := by
  have h1 := roundQ4_mono h
  have h0 : roundQ4 0 = 0 := by
    unfold roundQ4
    rw [show (0 : ℚ) * 10000 = 0 by ring, roundHalfEven_zero]
    norm_num
  linarith

theorem roundQ4_le_one {q : ℚ} (h : q ≤ 1) : roundQ4 q ≤ 1 := by
  have h1 := roundQ4_mono h
  have h0 : roundQ4 1 = 1 := by
    unfold roundQ4
    rw [show (1 : ℚ) * 10000 = 10000 by ring, roundHalfEven_tenK]
    norm_num
  linarith

theorem drawdownStep_snd_le (s : ℚ × ℚ) (v : ℚ) : s.2 ≤ (drawdownStep s v).2 := by
  obtain ⟨p, m⟩ := s
  simp only [drawdownStep]
  split_ifs <;> linarith

theorem foldl_drawdownStep_snd_le (l : List ℚ) (s : ℚ × ℚ) :
    s.2 ≤ (l.foldl drawdownStep s).2 := by
  induction l generalizing s with
  | nil => simp
  | cons v vs ih => exact le_trans (drawdownStep_snd_le s v) (ih (drawdownStep s v))

theorem drawdownStep_snd_le_one (s : ℚ × ℚ) (v : ℚ) (hv : 0 ≤ v) (hs : s.2 ≤ 1) :
    (drawdownStep s v).2 ≤ 1 := by
  obtain ⟨p, m⟩ := s
  have hm : m ≤ 1 := hs
  simp only [drawdownStep]
  split_ifs <;>
    first
      | linarith
      | (rw [div_le_one (by linarith)]; linarith)

theorem foldl_drawdownStep_snd_le_one (l : List ℚ) :
    ∀ s : ℚ × ℚ, (∀ v ∈ l, 0 ≤ v) → s.2 ≤ 1 → (l.foldl drawdownStep s).2 ≤ 1 := by
  induction l with
  | nil => intro s _ hs; simpa using hs
  | cons v vs ih =>
    intro s hl hs
    simp only [List.foldl_cons]
    exact ih _ (fun x hx => hl x (List.mem_cons_of_mem v hx))
      (drawdownStep_snd_le_one s v (hl v (List.mem_cons_self v vs)) hs)

theorem drawdownStep_nonpos (p m v : ℚ) (hv : v ≤ 0) (hp : p ≤ 0) (hm : 0 ≤ m) :
    drawdownStep (p, m) v = (if v > p then v else p, m) := by
  simp only [drawdownStep]
  have hp' : ¬((if v > p then v else p) > 0) := by split_ifs <;> push_neg <;> linarith
  rw [if_neg hp', if_neg (by linarith : ¬((0 : ℚ) > m))]

theorem foldl_drawdownStep_nonpos (l : List ℚ) :
    ∀ p m : ℚ, (∀ v ∈ l, v ≤ 0) → p ≤ 0 → 0 ≤ m →
      (l.foldl drawdownStep (p, m)).2 = m := by
  induction l with
  | nil => intros; rfl
  | cons v vs ih =>
    intro p m hl hp hm
    have hv : v ≤ 0 := hl v (List.mem_cons_self v vs)
    simp only [List.foldl_cons, drawdownStep_nonpos p m v hv hp hm]
    exact ih _ m (fun x hx => hl x (List.mem_cons_of_mem v hx))
      (by split_ifs <;> linarith) hm

theorem maxDrawdown_nonneg (l : List ℚ) : 0 ≤ maxDrawdown l := by
  cases l with
  | nil => simp [maxDrawdown]
  | cons e es =>
    simp only [maxDrawdown]
    have := foldl_drawdownStep_snd_le (e :: es) (e, 0)
    simpa using this

theorem maxDrawdown_le_one (l : List ℚ) (hl : ∀ v ∈ l, 0 ≤ v) : maxDrawdown l ≤ 1 := by
  cases l with
  | nil => simp [maxDrawdown]
  | cons e es =>
    simp only [maxDrawdown]
    exact foldl_drawdownStep_snd_le_one (e :: es) (e, 0) hl (by norm_num)

theorem maxDrawdown_of_nonpos (l : List ℚ) (hl : ∀ v ∈ l, v ≤ 0) : maxDrawdown l = 0 := by
  cases l with
  | nil => rfl
  | cons e es =>
    simp only [maxDrawdown]
    exact foldl_drawdownStep_nonpos (e :: es) e 0
      hl (hl e (List.mem_cons_self e es)) le_rfl

theorem maxDrawdown_append_single (l : List ℚ) (v : ℚ) :
    maxDrawdown l ≤ maxDrawdown (l ++ [v]) := by
  cases l with
  | nil =>
    simpa using maxDrawdown_nonneg [v]
  | cons e es =>
    rw [List.cons_append]
    simp only [maxDrawdown, List.foldl_cons, List.foldl_append, List.foldl_nil]
    exact drawdownStep_snd_le _ v

theorem equityCurve_append_single (xs : List ℚ) :
    ∀ c r : ℚ, ∃ v, equityCurve c (xs ++ [r]) = equityCurve c xs ++ [v] := by
  induction xs with
  | nil => exact fun c r => ⟨c * (1 + r), rfl⟩
  | cons x xs ih =>
    intro c r
    obtain ⟨v, hv⟩ := ih (c * (1 + x)) r
    refine ⟨v, ?_⟩
    rw [List.cons_append]
    simp only [equityCurve]
    rw [hv, List.cons_append]

theorem equityCurve_nonneg (xs : List ℚ) :
    ∀ c : ℚ, 0 ≤ c → (∀ r ∈ xs, -1 ≤ r) → ∀ v ∈ equityCurve c xs, 0 ≤ v := by
  induction xs with
  | nil =>
    intro c hc _ v hv
    simp only [equityCurve, List.mem_singleton] at hv
    exact hv ▸ hc
  | cons x xs ih =>
    intro c hc hxs v hv
    simp only [equityCurve, List.mem_cons] at hv
    rcases hv with rfl | hv
    · exact hc
    · have hx : -1 ≤ x := hxs x (List.mem_cons_self x xs)
      exact ih (c * (1 + x)) (mul_nonneg hc (by linarith))
        (fun r hr => hxs r (List.mem_cons_of_mem x hr)) v hv

theorem equityCurve_nonpos (xs : List ℚ) :
    ∀ c : ℚ, c ≤ 0 → (∀ r ∈ xs, -1 ≤ r) → ∀ v ∈ equityCurve c xs, v ≤ 0 := by
  induction xs with
  | nil =>
    intro c hc _ v hv
    simp only [equityCurve, List.mem_singleton] at hv
    exact hv ▸ hc
  | cons x xs ih =>
    intro c hc hxs v hv
    simp only [equityCurve, List.mem_cons] at hv
    rcases hv with rfl | hv
    · exact hc
    · have hx : -1 ≤ x := hxs x (List.mem_cons_self x xs)
      exact ih (c * (1 + x)) (mul_nonpos_iff.mpr (Or.inr ⟨hc, by linarith⟩))
        (fun r hr => hxs r (List.mem_cons_of_mem x hr)) v hv

theorem computeMetrics_cons_win_rate (x : ℚ) (xs : List ℚ) (c : ℚ) :
    (computeMetrics (x :: xs) c).win_rate =
      roundQ4 (((((x :: xs).filter fun y => 0 < y).length : ℚ)) / (((x :: xs).length : ℚ))) := by
  simp only [computeMetrics, List.length_cons]
  rw [if_pos (Nat.succ_pos xs.length)]

theorem computeMetrics_cons_max_drawdown (x : ℚ) (xs : List ℚ) (c : ℚ) :
    (computeMetrics (x :: xs) c).max_drawdown =
      roundQ4 (maxDrawdown (equityCurve c (x :: xs))) := rfl

/-- C7 counterexample: the claim "max_drawdown ∈ [0,1] for every trade
list" fails at the one-trade list with return −2 and capital 1000: the
equity goes from 1000 to −1000, the drawdown is (1000−(−1000))/1000 = 2,
and the reported max_drawdown is 2 > 1 (the single return −2 is also
strictly negative, so the strictly-negative-returns part fails on the
same input). -/
theorem metrics_drawdown_exceeds_one :
    (computeMetrics [-2] 1000).max_drawdown = 2 ∧
    1 < (computeMetrics [-2] 1000).max_drawdown := by
  have h : (computeMetrics [-2] 1000).max_drawdown = 2 := by
    rw [computeMetrics_cons_max_drawdown]
    norm_num [equityCurve, maxDrawdown, drawdownStep, List.foldl, roundQ4, roundHalfEven]
  exact ⟨h, by rw [h]; norm_num⟩

/-- C7 (amended): for every trade list `computeMetrics` returns
win_rate in [0,1] and max_drawdown ≥ 0; when every return is at least
−1 (so the compounded equity cannot cross zero) max_drawdown is at most
1; and max_drawdown is non-decreasing as a further trade — in
particular a further losing trade — is appended. -/
theorem metrics_bounds_amended (rets : List ℚ) (c r : ℚ) :
    0 ≤ (computeMetrics rets c).win_rate ∧
    (computeMetrics rets c).win_rate ≤ 1 ∧
    0 ≤ (computeMetrics rets c).max_drawdown ∧
    ((∀ x ∈ rets, -1 ≤ x) → (computeMetrics rets c).max_drawdown ≤ 1) ∧
    (computeMetrics rets c).max_drawdown ≤ (computeMetrics (rets ++ [r]) c).max_drawdown := by
  cases rets with
  | nil =>
    refine ⟨le_rfl, by norm_num [computeMetrics], le_rfl, fun _ => by norm_num [computeMetrics], ?_⟩
    show (computeMetrics [] c).max_drawdown ≤ (computeMetrics [r] c).max_drawdown
    rw [computeMetrics_cons_max_drawdown]
    exact le_trans (le_of_eq rfl) (roundQ4_nonneg (maxDrawdown_nonneg _))
  | cons x xs =>
    refine ⟨?_, ?_, ?_, ?_, ?_⟩
    · rw [computeMetrics_cons_win_rate]
      exact roundQ4_nonneg (div_nonneg (Nat.cast_nonneg _) (Nat.cast_nonneg _))
    · rw [computeMetrics_cons_win_rate]
      refine roundQ4_le_one ?_
      rw [div_le_one (by exact_mod_cast List.length_pos.mpr (List.cons_ne_nil x xs))]
      exact_mod_cast List.length_filter_le _ (x :: xs)
    · rw [computeMetrics_cons_max_drawdown]
      exact roundQ4_nonneg (maxDrawdown_nonneg _)
    · intro hx
      rw [computeMetrics_cons_max_drawdown]
      refine roundQ4_le_one ?_
      rcases le_or_lt 0 c with hc | hc
      · exact maxDrawdown_le_one _ (equityCurve_nonneg (x :: xs) c hc hx)
      · rw [maxDrawdown_of_nonpos _ (equityCurve_nonpos (x :: xs) c (le_of_lt hc) hx)]
        norm_num
    · rw [List.cons_append, computeMetrics_cons_max_drawdown,
        computeMetrics_cons_max_drawdown, ← List.cons_append]
      refine roundQ4_mono ?_
      obtain ⟨v, hv⟩ := equityCurve_append_single (x :: xs) c r
      rw [hv]
      exact maxDrawdown_append_single _ v

/-- C7 witness: the amended bound applied at the one-trade list with
return −0.5 (strictly negative, at least −1) and capital 1000. -/
theorem metrics_bounds_amended_witness :
    (computeMetrics [-(1/2)] 1000).max_drawdown ≤ 1 :=
  (metrics_bounds_amended [-(1/2)] 1000 (-(1/2))).2.2.2.1 (by norm_num)

theorem TradeListOK_nil : TradeListOK [] := ⟨by simp, List.chain'_nil⟩

theorem TradeListOK_append (l : List Trade) (t : Trade)
    (h : TradeListOK l) (h2 : ∀ a ∈ l, a.exit_index < t.entry_index)
    (h3 : t.entry_index < t.exit_index) : TradeListOK (l ++ [t]) := by
  constructor
  · intro a ha
    rcases List.mem_append.mp ha with ha | ha
    · exact h.1 a ha
    · rw [List.mem_singleton] at ha
      exact ha ▸ h3
  · rw [List.chain'_append]
    refine ⟨h.2, List.chain'_singleton t, ?_⟩
    intro x hx y hy
    rw [List.head?_cons, Option.mem_some_iff] at hy
    obtain ⟨hh, rfl⟩ := List.mem_getLast?_eq_getLast hx
    exact hy ▸ h2 _ (List.getLast_mem hh)

theorem StInv_succ (i : ℕ) (st : SimState) (h : StInv i st) : StInv (i + 1) st :=
  ⟨h.1, fun t ht => Nat.lt_succ_of_lt (h.2.1 t ht),
   fun ep ei hh => ⟨Nat.lt_succ_of_lt (h.2.2 ep ei hh).1, (h.2.2 ep ei hh).2⟩⟩

theorem emaStep_flat (i : ℕ) (ps pl s l c : ℚ) (tr : List Trade) :
    emaStep i ps pl s l c ⟨tr, none⟩ =
      if s > l ∧ ps ≤ pl then ⟨tr, some (c, i)⟩ else ⟨tr, none⟩ := rfl

theorem emaStep_open (i : ℕ) (ps pl s l c ep : ℚ) (ei : ℕ) (tr : List Trade) :
    emaStep i ps pl s l c ⟨tr, some (ep, ei)⟩ =
      if s < l ∧ ps ≥ pl then
        ⟨tr ++ [⟨ep, c, (c - ep) / ep, ei, i, none⟩], none⟩
      else ⟨tr, some (ep, ei)⟩ := rfl

theorem StInv_open_succ (i : ℕ) (tr : List Trade) (price : ℚ)
    (h : StInv i ⟨tr, none⟩) : StInv (i + 1) ⟨tr, some (price, i)⟩ := by
  refine ⟨h.1, fun t ht => Nat.lt_succ_of_lt (h.2.1 t ht), ?_⟩
  rintro ep ei hh
  rw [Option.some.injEq, Prod.mk.injEq] at hh
  obtain ⟨-, rfl⟩ := hh
  exact ⟨Nat.lt_succ_self i, fun t ht => h.2.1 t ht⟩

theorem StInv_close_succ (i : ℕ) (tr : List Trade) (ep price : ℚ) (ei : ℕ)
    (reason : Option String)
    (h : StInv i ⟨tr, some (ep, ei)⟩) :
    StInv (i + 1) ⟨tr ++ [⟨ep, price, (price - ep) / ep, ei, i, reason⟩], none⟩ := by
  obtain ⟨hok, hexit, hpos⟩ := h
  obtain ⟨hei, hall⟩ := hpos ep ei rfl
  refine ⟨TradeListOK_append tr _ hok (fun a ha => hall a ha) hei, ?_, ?_⟩
  · intro t ht
    rcases List.mem_append.mp ht with ht | ht
    · exact Nat.lt_succ_of_lt (Nat.lt_of_lt_of_le (hexit t ht) (Nat.le_refl i))
    · rw [List.mem_singleton] at ht
      subst ht
      exact Nat.lt_succ_self i
  · rintro ep' ei' hh
    exact absurd hh (by simp)

theorem emaStep_inv (i : ℕ) (ps pl s l c : ℚ) (st : SimState) (h : StInv i st) :
    StInv (i + 1) (emaStep i ps pl s l c st) := by
  obtain ⟨tr, pos⟩ := st
  cases pos with
  | none =>
    rw [emaStep_flat]
    split_ifs with hc
    · exact StInv_open_succ i tr c h
    · exact StInv_succ i _ h
  | some pe =>
    obtain ⟨ep, ei⟩ := pe
    rw [emaStep_open]
    split_ifs with hc
    · exact StInv_close_succ i tr ep c ei none h
    · exact StInv_succ i _ h

theorem emaSimAux_inv (rows : List (ℚ × ℚ × ℚ)) :
    ∀ (i : ℕ) (pv : ℚ × ℚ) (st : SimState), StInv i st →
      TradeListOK (emaSimAux i pv rows st) ∧
      ∀ t ∈ emaSimAux i pv rows st, t.exit_index < i + rows.length := by
  induction rows with
  | nil =>
    intro i pv st h
    obtain ⟨ps, pl⟩ := pv
    exact ⟨h.1, fun t ht => by simpa using h.2.1 t ht⟩
  | cons row rest ih =>
    intro i pv st h
    obtain ⟨s, l, c⟩ := row
    obtain ⟨ps, pl⟩ := pv
    have h' := emaStep_inv i ps pl s l c st h
    have hrec := ih (i + 1) (s, l) (emaStep i ps pl s l c st) h'
    refine ⟨hrec.1, fun t ht => ?_⟩
    have := hrec.2 t ht
    simp only [List.length_cons]
    omega

theorem emaSimulate_spec (short long close : List ℚ) :
    TradeListOK (emaSimulate short long close) ∧
    ∀ t ∈ emaSimulate short long close, t.exit_index < close.length := by
  cases short with
  | nil => exact ⟨TradeListOK_nil, fun t ht => absurd ht (List.not_mem_nil t)⟩
  | cons s0 sRest =>
    cases long with
    | nil => exact ⟨TradeListOK_nil, fun t ht => absurd ht (List.not_mem_nil t)⟩
    | cons l0 lRest =>
      cases close with
      | nil => exact ⟨TradeListOK_nil, fun t ht => absurd ht (List.not_mem_nil t)⟩
      | cons c0 cRest =>
        have hinv : StInv 1 (⟨[], none⟩ : SimState) :=
          ⟨TradeListOK_nil, by simp, by simp⟩
        have h := emaSimAux_inv (sRest.zip (lRest.zip cRest)) 1 (s0, l0) ⟨[], none⟩ hinv
        refine ⟨h.1, fun t ht => ?_⟩
        have h2 := h.2 t ht
        have h3 : (sRest.zip (lRest.zip cRest)).length ≤ cRest.length := by
          simp only [List.length_zip]
          omega
        simp only [List.length_cons]
        omega

theorem rsiStep_flat (os ob : ℚ) (i : ℕ) (prev cur : PVal) (price : ℚ) (tr : List Trade) :
    rsiStep os ob i prev cur price ⟨tr, none⟩ =
      if cur.isna || prev.isna then ⟨tr, none⟩
      else if cur.ltQ os && prev.geQ os then ⟨tr, some (price, i)⟩
      else ⟨tr, none⟩ := rfl

theorem rsiStep_openeq (os ob : ℚ) (i : ℕ) (prev cur : PVal) (price ep : ℚ) (ei : ℕ)
    (tr : List Trade) :
    rsiStep os ob i prev cur price ⟨tr, some (ep, ei)⟩ =
      if cur.isna || prev.isna then ⟨tr, some (ep, ei)⟩
      else if cur.gtQ ob && prev.leQ ob then
        ⟨tr ++ [⟨ep, price, (price - ep) / ep, ei, i, some "overbought"⟩], none⟩
      else if cur.ltQ 50 && prev.geQ 50 && decide (ei + 5 < i) then
        ⟨tr ++ [⟨ep, price, (price - ep) / ep, ei, i, some "mid_level_exit"⟩], none⟩
      else ⟨tr, some (ep, ei)⟩ := rfl

theorem rsiStep_inv (os ob : ℚ) (i : ℕ) (prev cur : PVal) (price : ℚ) (st : SimState)
    (h : StInv i st) : StInv (i + 1) (rsiStep os ob i prev cur price st) := by
  obtain ⟨tr, pos⟩ := st
  cases pos with
  | none =>
    rw [rsiStep_flat]
    split_ifs with h1 h2
    · exact StInv_succ i _ h
    · exact StInv_open_succ i tr price h
    · exact StInv_succ i _ h
  | some pe =>
    obtain ⟨ep, ei⟩ := pe
    rw [rsiStep_openeq]
    split_ifs with h1 h2 h3
    · exact StInv_succ i _ h
    · exact StInv_close_succ i tr ep price ei (some "overbought") h
    · exact StInv_close_succ i tr ep price ei (some "mid_level_exit") h
    · exact StInv_succ i _ h

theorem rsiSimAux_inv (rows : List (PVal × ℚ)) :
    ∀ (os ob : ℚ) (i : ℕ) (prev : PVal) (st : SimState), StInv i st →
      TradeListOK (rsiSimAux os ob i prev rows st) ∧
      ∀ t ∈ rsiSimAux os ob i prev rows st, t.exit_index < i + rows.length := by
  induction rows with
  | nil =>
    intro os ob i prev st h
    exact ⟨h.1, fun t ht => by simpa using h.2.1 t ht⟩
  | cons row rest ih =>
    intro os ob i prev st h
    obtain ⟨cur, price⟩ := row
    have h' := rsiStep_inv os ob i prev cur price st h
    have hrec := ih os ob (i + 1) cur (rsiStep os ob i prev cur price st) h'
    refine ⟨hrec.1, fun t ht => ?_⟩
    have := hrec.2 t ht
    simp only [List.length_cons]
    omega

theorem rsiSimulate_spec (rsi : List PVal) (close : List ℚ) (os ob : ℚ) :
    TradeListOK (rsiSimulate rsi close os ob) ∧
    ∀ t ∈ rsiSimulate rsi close os ob, t.exit_index < close.length := by
  cases rsi with
  | nil => exact ⟨TradeListOK_nil, fun t ht => absurd ht (List.not_mem_nil t)⟩
  | cons r0 rRest =>
    cases close with
    | nil => exact ⟨TradeListOK_nil, fun t ht => absurd ht (List.not_mem_nil t)⟩
    | cons c0 cRest =>
      have hinv : StInv 1 (⟨[], none⟩ : SimState) :=
        ⟨TradeListOK_nil, by simp, by simp⟩
      have h := rsiSimAux_inv (rRest.zip cRest) os ob 1 r0 ⟨[], none⟩ hinv
      refine ⟨h.1, fun t ht => ?_⟩
      have h2 := h.2 t ht
      have h3 : (rRest.zip cRest).length ≤ cRest.length := by
        simp only [List.length_zip]
        omega
      simp only [List.length_cons]
      omega

/-- C1: whenever a run of the EMA-crossover or RSI-mean-reversion
strategy succeeds, every emitted trade has entry_index < exit_index,
consecutive trades do not overlap (exit of trade k < entry of trade
k+1, which is single-position discipline expressed on the output), and
every emitted trade closed inside the series — the trade left open at
series end, if any, lives only in the final loop state and is never
emitted. -/
theorem strategy_trade_invariants (series : List ℚ) (pE : EMAParams) (pR : RSIParams)
    (tsE tsR : List Trade)
    (hE : runEMACrossover series pE = .ok tsE)
    (hR : runRSIMeanReversion series pR = .ok tsR) :
    (TradeListOK tsE ∧ ∀ t ∈ tsE, t.exit_index < series.length) ∧
    (TradeListOK tsR ∧ ∀ t ∈ tsR, t.exit_index < series.length) := by
  constructor
  · cases hv : validateEMAParams pE with
    | error e =>
      simp only [runEMACrossover, hv] at hE
      exact absurd hE (by simp)
    | ok u =>
      simp only [runEMACrossover, hv] at hE
      split_ifs at hE with hlen
      rw [Except.ok.injEq] at hE
      subst hE
      exact emaSimulate_spec _ _ series
  · cases hv : validateRSIParams pR with
    | error e =>
      simp only [runRSIMeanReversion, hv] at hR
      exact absurd hR (by simp)
    | ok u =>
      simp only [runRSIMeanReversion, hv] at hR
      split_ifs at hR with hlen
      rw [Except.ok.injEq] at hR
      subst hR
      exact rsiSimulate_spec _ series _ _

/-- C2: with valid parameters, a series shorter than `long_period`
(EMA) or `period + 1` (RSI) makes the run fail with the
insufficient-data error before any computation, and a series at least
that long makes the run succeed — no such error is possible. -/
theorem insufficient_data_threshold (series : List ℚ) (pE : EMAParams) (pR : RSIParams)
    (hvE : validateEMAParams pE = .ok ()) (hvR : validateRSIParams pR = .ok ()) :
    ((series.length : ℤ) < pE.long_period →
      runEMACrossover series pE = .error .insufficientDataError) ∧
    (pE.long_period ≤ (series.length : ℤ) →
      ∃ ts, runEMACrossover series pE = .ok ts) ∧
    ((series.length : ℤ) < pR.period + 1 →
      runRSIMeanReversion series pR = .error .insufficientDataError) ∧
    (pR.period + 1 ≤ (series.length : ℤ) →
      ∃ ts, runRSIMeanReversion series pR = .ok ts) := by
  refine ⟨fun h => ?_, fun h => ?_, fun h => ?_, fun h => ?_⟩
  · simp only [runEMACrossover, hvE]
    rw [if_pos h]
  · simp only [runEMACrossover, hvE]
    rw [if_neg (not_lt.mpr h)]
    exact ⟨_, rfl⟩
  · simp only [runRSIMeanReversion, hvR]
    rw [if_pos h]
  · simp only [runRSIMeanReversion, hvR]
    rw [if_neg (not_lt.mpr h)]
    exact ⟨_, rfl⟩

/-- C2 witness: a single-candle series is too short for EMA(1,3) and
RSI(period 1), and both runs report the insufficient-data error. -/
theorem insufficient_data_threshold_witness :
    runEMACrossover [1] ⟨1, 3⟩ = .error .insufficientDataError ∧
    runRSIMeanReversion [1] ⟨1, 30, 70⟩ = .error .insufficientDataError := by
  have hvE : validateEMAParams ⟨1, 3⟩ = .ok () := by norm_num [validateEMAParams]
  have hvR : validateRSIParams ⟨1, 30, 70⟩ = .ok () := by norm_num [validateRSIParams]
  have h := insufficient_data_threshold [1] ⟨1, 3⟩ ⟨1, 30, 70⟩ hvE hvR
  exact ⟨h.1 (by norm_num), h.2.2.1 (by norm_num)⟩

/-- C1 witness: both strategies run successfully on a constant
three-candle series (EMA periods 1/3, RSI period 1 with levels 30/70)
and emit the empty, trivially well-formed trade list. -/
theorem strategy_trade_invariants_witness :
    (TradeListOK ([] : List Trade) ∧
      ∀ t ∈ ([] : List Trade), t.exit_index < ([1, 1, 1] : List ℚ).length) ∧
    (TradeListOK ([] : List Trade) ∧
      ∀ t ∈ ([] : List Trade), t.exit_index < ([1, 1, 1] : List ℚ).length) := by
  have hE : runEMACrossover [1, 1, 1] ⟨1, 3⟩ = .ok [] := by
    norm_num [runEMACrossover, validateEMAParams, computeEMA, ewmAdjustFalse, ewmGo,
      emaSimulate, emaSimAux, emaStep, List.zip, List.zipWith]
  have hR : runRSIMeanReversion [1, 1, 1] ⟨1, 30, 70⟩ = .ok [] := by
    norm_num [runRSIMeanReversion, validateRSIParams, computeRSI, avgGainList, avgLossList,
      gainsList, lossesList, ewmAdjustFalse, ewmGo, fdiv, rsiOfAvgs, PVal.subFrom,
      PVal.divInto, PVal.addConst, rsiSimulate, rsiSimAux, rsiStep, PVal.isna, List.zip,
      List.zipWith]
  exact strategy_trade_invariants [1, 1, 1] ⟨1, 3⟩ ⟨1, 30, 70⟩ [] [] hE hR

theorem ewmGo_length (α prev : ℚ) (xs : List ℚ) : (ewmGo α prev xs).length = xs.length := by
  induction xs generalizing prev with
  | nil => rfl
  | cons x xs ih => simp [ewmGo, ih]

theorem ewmAdjustFalse_length (α : ℚ) (s : List ℚ) :
    (ewmAdjustFalse α s).length = s.length := by
  cases s with
  | nil => rfl
  | cons x xs => simp [ewmAdjustFalse, ewmGo_length]

theorem ewmGo_recurrence (xs : List ℚ) :
    ∀ (α prev : ℚ) (t : ℕ), t + 1 < xs.length →
      (ewmGo α prev xs).getD (t + 1) 0 =
        xs.getD (t + 1) 0 * α + (ewmGo α prev xs).getD t 0 * (1 - α) := by
  induction xs with
  | nil => intro α prev t ht; simp at ht
  | cons x xs ih =>
    intro α prev t ht
    cases t with
    | zero =>
      cases xs with
      | nil => simp at ht
      | cons x2 xs2 => simp [ewmGo]
    | succ t' =>
      have h := ih α (x * α + prev * (1 - α)) t' (by simp at ht; omega)
      simpa [ewmGo] using h

theorem ewmAdjustFalse_recurrence (α : ℚ) (s : List ℚ) (t : ℕ) (ht : t + 1 < s.length) :
    (ewmAdjustFalse α s).getD (t + 1) 0 =
      s.getD (t + 1) 0 * α + (ewmAdjustFalse α s).getD t 0 * (1 - α) := by
  cases s with
  | nil => simp at ht
  | cons x xs =>
    cases t with
    | zero =>
      cases xs with
      | nil => simp at ht
      | cons x2 xs2 => simp [ewmAdjustFalse, ewmGo]
    | succ t' =>
      have h := ewmGo_recurrence xs α x t' (by simp at ht; omega)
      simpa [ewmAdjustFalse] using h

/-- C5: on every non-empty series and period ≥ 1 the source's pandas
`ewm(span=period, adjust=False)` EMA has an entry for every index of
the input (same length, no warm-up gap) and agrees at every index with
the spec's recursive reference definition `ema[0] = series[0]`,
`ema[t] = price[t]*k + ema[t-1]*(1-k)`, `k = 2/(period+1)`. -/
theorem computeEMA_matches_spec (series : List ℚ) (period : ℤ)
    (hs : series ≠ []) (hp : 1 ≤ period) :
    (computeEMA series period).length = series.length ∧
    ∀ t < series.length,
      (computeEMA series period).getD t 0 =
        emaSpecVal series (2 / ((period : ℚ) + 1)) t := by
  refine ⟨ewmAdjustFalse_length _ _, ?_⟩
  intro t
  induction t with
  | zero =>
    intro ht
    obtain ⟨x, xs, rfl⟩ := List.exists_cons_of_ne_nil hs
    rfl
  | succ t ihh =>
    intro ht
    simp only [emaSpecVal]
    rw [← ihh (by omega)]
    exact ewmAdjustFalse_recurrence _ series t ht

/-- C5 witness: the refinement applied to the two-candle series [1, 2]
with period 3. -/
theorem computeEMA_matches_spec_witness :
    (computeEMA [1, 2] 3).length = ([1, 2] : List ℚ).length ∧
    ∀ t < ([1, 2] : List ℚ).length,
      (computeEMA [1, 2] 3).getD t 0 = emaSpecVal [1, 2] (2 / (((3 : ℤ) : ℚ) + 1)) t :=
  computeEMA_matches_spec [1, 2] 3 (by simp) (by norm_num)

theorem gainsList_length (s : List ℚ) : (gainsList s).length = s.length := by
  cases s with
  | nil => rfl
  | cons x xs => simp [gainsList, List.length_zipWith]

theorem lossesList_length (s : List ℚ) : (lossesList s).length = s.length := by
  cases s with
  | nil => rfl
  | cons x xs => simp [lossesList, List.length_zipWith]

theorem avgGainList_length (s : List ℚ) (p : ℤ) : (avgGainList s p).length = s.length := by
  rw [avgGainList, ewmAdjustFalse_length, gainsList_length]

theorem avgLossList_length (s : List ℚ) (p : ℤ) : (avgLossList s p).length = s.length := by
  rw [avgLossList, ewmAdjustFalse_length, lossesList_length]

theorem computeRSI_getD (s : List ℚ) (p : ℤ) (t : ℕ) (ht : t < s.length) :
    (computeRSI s p).getD t .nan =
      rsiOfAvgs ((avgGainList s p).getD t 0) ((avgLossList s p).getD t 0) := by
  have h1 : t < (avgGainList s p).length := by rw [avgGainList_length]; exact ht
  have h2 : t < (avgLossList s p).length := by rw [avgLossList_length]; exact ht
  have h3 : t < (List.zipWith rsiOfAvgs (avgGainList s p) (avgLossList s p)).length := by
    rw [List.length_zipWith]
    omega
  rw [computeRSI, List.getD_eq_getElem _ _ h3, List.getElem_zipWith,
    List.getD_eq_getElem _ _ h1, List.getD_eq_getElem _ _ h2]

/-- C4: at every index where the smoothed average loss is exactly 0 and
the smoothed average gain is strictly positive, the RSI entry is the
defined finite value 100 — under the float semantics of the source,
`rs = gain/0 = +inf` and `100 - 100/(1 + inf) = 100 - 0 = 100`, never a
NaN or an infinity. -/
theorem rsi_avg_loss_zero (series : List ℚ) (period : ℤ) (t : ℕ)
    (ht : t < series.length)
    (hl : (avgLossList series period).getD t 0 = 0)
    (hg : 0 < (avgGainList series period).getD t 0) :
    (computeRSI series period).getD t .nan = .fin 100 := by
  rw [computeRSI_getD series period t ht, hl]
  unfold rsiOfAvgs fdiv
  rw [if_pos rfl, if_pos hg]
  norm_num [PVal.addConst, PVal.divInto, PVal.subFrom]

/-- C4 witness: on the rising series [1, 2] with period 14, the
average loss at index 1 is 0, the average gain is 2/15 > 0, and the
RSI at index 1 is exactly 100. -/
theorem rsi_avg_loss_zero_witness :
    (computeRSI [1, 2] 14).getD 1 .nan = .fin 100 :=
  rsi_avg_loss_zero [1, 2] 14 1 (by norm_num)
    (by norm_num [avgLossList, lossesList, ewmAdjustFalse, ewmGo, List.zipWith])
    (by norm_num [avgGainList, gainsList, ewmAdjustFalse, ewmGo, List.zipWith])

/-- C6: while a position is open (and the RSI values are not NaN), the
overbought take-profit crossing is checked first and emits
exit_reason "overbought"; the mid-level stop fires only when the
take-profit did not fire at this index and `rsi[i-1] ≥ 50`,
`rsi[i] < 50`, `i > entry_index + 5`, emitting "mid_level_exit"; and
the two crossing conditions can never hold together (the last conjunct),
so whenever the take-profit condition holds — in particular in the
hypothetical simultaneous case — the emitted reason is "overbought". -/
theorem rsi_exit_precedence (os ob : ℚ) (i ei : ℕ) (prev cur : PVal) (price ep : ℚ)
    (tr : List Trade) (hc : cur.isna = false) (hp : prev.isna = false) :
    ((cur.gtQ ob && prev.leQ ob) = true →
      rsiStep os ob i prev cur price ⟨tr, some (ep, ei)⟩ =
        ⟨tr ++ [⟨ep, price, (price - ep) / ep, ei, i, some "overbought"⟩], none⟩) ∧
    ((cur.gtQ ob && prev.leQ ob) = false →
      (cur.ltQ 50 && prev.geQ 50 && decide (ei + 5 < i)) = true →
      rsiStep os ob i prev cur price ⟨tr, some (ep, ei)⟩ =
        ⟨tr ++ [⟨ep, price, (price - ep) / ep, ei, i, some "mid_level_exit"⟩], none⟩) ∧
    ((cur.gtQ ob && prev.leQ ob) && (cur.ltQ 50 && prev.geQ 50)) = false := by
  refine ⟨fun hA => ?_, fun hA hB => ?_, ?_⟩
  · rw [rsiStep_openeq, hc, hp]
    simp [hA]
  · rw [rsiStep_openeq, hc, hp]
    simp [hA, hB]
  · cases cur with
    | nan => simp [PVal.gtQ, PVal.ltQ]
    | posInf => simp [PVal.gtQ, PVal.ltQ]
    | negInf => simp [PVal.gtQ, PVal.ltQ]
    | fin q =>
      cases prev with
      | nan => simp [PVal.leQ, PVal.geQ]
      | posInf => simp [PVal.leQ, PVal.geQ]
      | negInf => simp [PVal.leQ, PVal.geQ]
      | fin p =>
        simp only [PVal.gtQ, PVal.leQ, PVal.ltQ, PVal.geQ, Bool.and_eq_false_iff,
          decide_eq_false_iff_not, not_lt, not_le, decide_eq_true_eq]
        by_cases h1 : ob < q
        · by_cases h2 : p ≤ ob
          · right
            by_cases h3 : q < 50
            · right; linarith
            · left; linarith
          · left; right; linarith
        · left; left; linarith

/-- C6 witness: with levels 30/70, RSI going from 60 to 80 at index 10
of an open position entered at index 1, the overbought branch fires
and the trade carries exit_reason "overbought". -/
theorem rsi_exit_precedence_witness :
    rsiStep 30 70 10 (.fin 60) (.fin 80) 2 ⟨[], some (1, 1)⟩ =
      ⟨[⟨1, 2, (2 - 1) / 1, 1, 10, some "overbought"⟩], none⟩ :=
  (rsi_exit_precedence 30 70 10 1 (.fin 60) (.fin 80) 2 1 [] rfl rfl).1
    (by norm_num [PVal.gtQ, PVal.leQ])

theorem extractReturn_keyless (t : TradeDict) (h1 : t.ret = none) (h2 : t.ret_pct = none) :
    extractReturn t = 0 := by
  simp [extractReturn, h1, h2]

theorem mclFold_no_losses (rs : List ℚ) :
    ∀ s : ℕ × ℕ, (∀ r ∈ rs, ¬(r < 0)) → (rs.foldl mclStep s).1 = s.1 := by
  induction rs with
  | nil => intros; rfl
  | cons r rs ih =>
    intro s hr
    obtain ⟨mx, cur⟩ := s
    have hstep : mclStep (mx, cur) r = (mx, 0) := by
      simp [mclStep, hr r (List.mem_cons_self r rs)]
    rw [List.foldl_cons, hstep]
    exact ih (mx, 0) (fun x hx => hr x (List.mem_cons_of_mem r hx))

theorem roundQ4_zero : roundQ4 0 = 0 := by
  unfold roundQ4
  rw [show (0 : ℚ) * 10000 = 0 by ring, roundHalfEven_zero]
  norm_num

theorem largestLoss_no_losses (rs : List ℚ) (h : ∀ r ∈ rs, ¬(r < 0)) :
    largestLoss rs = 0 := by
  unfold largestLoss
  rw [List.filter_eq_nil_iff.mpr (by simpa using h)]

theorem avgLoss_no_losses (rs : List ℚ) (h : ∀ r ∈ rs, ¬(r < 0)) :
    avgLoss rs = 0 := by
  unfold avgLoss
  rw [List.filter_eq_nil_iff.mpr (by simpa using h)]

/-- C10: a trade carrying neither a 'return' nor a 'return_pct' key is
silently given return 0 by `extractReturn` (= the source's nested
`dict.get` with default 0); 0 is not < 0, so it resets the
consecutive-loss counter; and `computeRisk` is a total function — the
Python body contains no raise and `dict.get` cannot fail — so any list
of such trades produces a result (with no losses at all: zero
max_consecutive_losses, largest_loss and avg_loss) and in particular
no MissingFieldError. -/
theorem risk_missing_keys (t : TradeDict) (ht1 : t.ret = none) (ht2 : t.ret_pct = none)
    (s : ℕ × ℕ) (ts : List TradeDict) (hts : ∀ u ∈ ts, u.ret = none ∧ u.ret_pct = none)
    (c : ℚ) :
    extractReturn t = 0 ∧
    mclStep s (extractReturn t) = (s.1, 0) ∧
    (computeRisk ts c).max_consecutive_losses = 0 ∧
    (computeRisk ts c).largest_loss = 0 ∧
    (computeRisk ts c).avg_loss = 0 := by
  have hz : ∀ u ∈ ts, extractReturn u = 0 :=
    fun u hu => extractReturn_keyless u (hts u hu).1 (hts u hu).2
  have hnl : ∀ r ∈ ts.map extractReturn, ¬(r < 0) := by
    intro r hr
    rw [List.mem_map] at hr
    obtain ⟨u, hu, rfl⟩ := hr
    rw [hz u hu]
    norm_num
  refine ⟨extractReturn_keyless t ht1 ht2, ?_, ?_, ?_, ?_⟩
  · obtain ⟨mx, cur⟩ := s
    rw [extractReturn_keyless t ht1 ht2]
    simp [mclStep]
  · cases ts with
    | nil => rfl
    | cons u us =>
      show maxConsecutiveLosses (List.map extractReturn (u :: us)) = 0
      exact mclFold_no_losses _ (0, 0) hnl
  · cases ts with
    | nil => rfl
    | cons u us =>
      show roundQ4 (largestLoss (List.map extractReturn (u :: us))) = 0
      rw [largestLoss_no_losses _ hnl, roundQ4_zero]
  · cases ts with
    | nil => rfl
    | cons u us =>
      show roundQ4 (avgLoss (List.map extractReturn (u :: us))) = 0
      rw [avgLoss_no_losses _ hnl, roundQ4_zero]

/-- C10 witness: two keyless trades with a counter state mid-run: the
extracted return is 0, the counter resets keeping the running maximum,
and the analysis yields zero loss statistics without failing. -/
theorem risk_missing_keys_witness :
    extractReturn ⟨none, none⟩ = 0 ∧
    mclStep (3, 2) (extractReturn ⟨none, none⟩) = (3, 0) ∧
    (computeRisk [⟨none, none⟩, ⟨none, none⟩] 1000).max_consecutive_losses = 0 ∧
    (computeRisk [⟨none, none⟩, ⟨none, none⟩] 1000).largest_loss = 0 ∧
    (computeRisk [⟨none, none⟩, ⟨none, none⟩] 1000).avg_loss = 0 :=
  risk_missing_keys ⟨none, none⟩ rfl rfl (3, 2)
    [⟨none, none⟩, ⟨none, none⟩]
    (by
      intro u hu
      simp only [List.mem_cons, List.not_mem_nil, or_false] at hu
      rcases hu with rfl | rfl <;> exact ⟨rfl, rfl⟩) 1000
